import Mathlib

/-!
Verification development for the Into dataflow library.

Shallow embeddings of:
- src/core/serialization/PiiNameValuePair.h (the Pii functional utilities
  UnaryCompose, BinaryCompose, CountFunction),
- src/unnamed/part_000 (PiiConfusionMatrix),
- src/ydin/PiiDefaultOperation.h (the PiiDefaultOperation scheduling and
  synchronization core: flow-controller selection, loose parent/child group
  relationships, sync-event ordering, the lifecycle state machine and the
  process lock protocol).

The repository ships the scheduling core as a header only; where a member
function body is not under src/, the corresponding definition is modelled
from the specification and the doc comment of the declaration, and is
marked `Modelled from the spec:` in its doc comment.
-/

namespace Into

/-! ## Functional utilities (PiiFunctional.h, shipped inside
src/core/serialization/PiiNameValuePair.h) -/

/-- Embedding of Pii::UnaryCompose: stores the two composed unary
functions, firstOp applied last. -/
structure UnaryCompose (α β γ : Type) where
  firstOp : β → γ
  secondOp : α → β

/-- Embedding of Pii::UnaryCompose::operator(): firstOp(secondOp(value)). -/
def UnaryCompose.apply {α β γ : Type} (u : UnaryCompose α β γ) (x : α) : γ :=
  u.firstOp (u.secondOp x)

/-- Embedding of Pii::unaryCompose, the helper that builds a UnaryCompose. -/
def unaryCompose {α β γ : Type} (op1 : β → γ) (op2 : α → β) : UnaryCompose α β γ :=
  ⟨op1, op2⟩

/-- Embedding of Pii::BinaryCompose: a binary function whose arguments are
produced by two unary functions. -/
structure BinaryCompose (α₁ α₂ β₁ β₂ γ : Type) where
  firstOp : β₁ → β₂ → γ
  secondOp : α₁ → β₁
  thirdOp : α₂ → β₂

/-- Embedding of the unary Pii::BinaryCompose::operator():
firstOp(secondOp(value), thirdOp(value)). -/
def BinaryCompose.applyUnary {α β₁ β₂ γ : Type} (b : BinaryCompose α α β₁ β₂ γ)
    (x : α) : γ :=
  b.firstOp (b.secondOp x) (b.thirdOp x)

/-- Embedding of the binary Pii::BinaryCompose::operator():
firstOp(secondOp(value1), thirdOp(value2)). -/
def BinaryCompose.applyBinary {α₁ α₂ β₁ β₂ γ : Type} (b : BinaryCompose α₁ α₂ β₁ β₂ γ)
    (x : α₁) (y : α₂) : γ :=
  b.firstOp (b.secondOp x) (b.thirdOp y)

/-- Embedding of Pii::binaryCompose, the helper that builds a BinaryCompose. -/
def binaryCompose {α₁ α₂ β₁ β₂ γ : Type} (op1 : β₁ → β₂ → γ) (op2 : α₁ → β₁)
    (op3 : α₂ → β₂) : BinaryCompose α₁ α₂ β₁ β₂ γ :=
  ⟨op1, op2, op3⟩

/-- Embedding of Pii::CountFunction: the internal counter and the increment,
both C++ ints. -/
structure CountFunction where
  _iCount : Int
  _iIncrement : Int

/-- Embedding of Pii::CountFunction::operator(): returns the current counter
value and the function object after the counter has been increased by the
increment. -/
def CountFunction.callOp (f : CountFunction) : Int × CountFunction :=
  (f._iCount, ⟨f._iCount + f._iIncrement, f._iIncrement⟩)

/-- Embedding of Pii::CountFunction::count: the current counter value. -/
def CountFunction.count (f : CountFunction) : Int :=
  f._iCount

/-- The state of a CountFunction after n calls of operator(). -/
def CountFunction.afterCalls (f : CountFunction) : Nat → CountFunction
  | 0 => f
  | n + 1 => (f.afterCalls n).callOp.2

/-- The value returned by the n-th call of operator(), counting from 1. -/
def CountFunction.nthCall (f : CountFunction) (n : Nat) : Int :=
  (f.afterCalls (n - 1)).callOp.1

/-! ## PiiConfusionMatrix (src/unnamed/part_000) -/

/-- Embedding of PiiConfusionMatrix, a square PiiMatrix of ints: the rows of
the matrix as lists of entries. -/
structure PiiConfusionMatrix where
  rows : List (List Int)

/-- The entry of the matrix at row r, column c (0 outside the stored area). -/
def PiiConfusionMatrix.entry (m : PiiConfusionMatrix) (r c : Nat) : Int :=
  (m.rows.getD r []).getD c 0

/-- The number of rows (classes) of the matrix. -/
def PiiConfusionMatrix.size (m : PiiConfusionMatrix) : Nat :=
  m.rows.length

/-- Modelled from the spec: PiiMatrix resizing (implementation not under
src/) grows the matrix to n by n entries, keeping every existing entry and
filling new cells with zero. -/
def PiiConfusionMatrix.resized (m : PiiConfusionMatrix) (n : Nat) : PiiConfusionMatrix :=
  ⟨(List.range n).map fun i => (List.range n).map fun j => m.entry i j⟩

/-- Modelled from the spec: PiiConfusionMatrix::addEntry (body not under
src/; doc comment in src/unnamed/part_000 lines 82 to 89): equal to
mat(correctClass, classification)++, but it ensures that the indices do not
exceed matrix dimensions, extending the matrix when they do; if either
index is negative the function does nothing. -/
def PiiConfusionMatrix.addEntry (m : PiiConfusionMatrix)
    (correctClass classification : Int) : PiiConfusionMatrix :=
  if correctClass < 0 ∨ classification < 0 then m
  else
    let r := correctClass.toNat
    let c := classification.toNat
    let n := max m.size (max r c + 1)
    let m2 := m.resized n
    ⟨m2.rows.set r ((m2.rows.getD r []).set c (m2.entry r c + 1))⟩

/-! ## PiiDefaultOperation scheduling core (src/ydin/PiiDefaultOperation.h)

The header declares the scheduling core; the member function bodies and the
PiiReadWriteLock and flow-controller implementations are not under src/, so
the definitions below are modelled from the spec and from the doc comments
of the declarations. -/

/-- Embedding of the operation lifecycle State (spec section 4.3). -/
inductive OpState where
  | Stopped
  | Starting
  | Running
  | Pausing
  | Paused
  | Stopping
  | Interrupted
deriving DecidableEq

/-- An input socket as the flow-controller selection logic sees it: whether
it is connected, and its synchronization group id. -/
structure InputSocket where
  connected : Bool
  groupId : Int
deriving DecidableEq

/-- The four outcomes of createFlowController: no controller (null pointer),
PiiOneInputFlowController, PiiOneGroupFlowController, or
PiiDefaultFlowController. -/
inductive FlowControllerKind where
  | none
  | oneInput
  | oneGroup
  | defaultController
deriving DecidableEq

/-- The connected input sockets of an operation. -/
def connectedInputs (l : List InputSocket) : List InputSocket :=
  l.filter (fun s => s.connected)

/-- Modelled from the spec: the strategy choice of createFlowController
(body not under src/; doc comment in PiiDefaultOperation.h lines 323 to
362) as a function of the connected inputs: none when there is no connected
input, PiiOneInputFlowController for exactly one connected input,
PiiOneGroupFlowController when all connected inputs are in the same group,
and PiiDefaultFlowController otherwise. -/
def selectController : List InputSocket → FlowControllerKind
  | [] => FlowControllerKind.none
  | [_] => FlowControllerKind.oneInput
  | s :: t :: rest =>
    if ∀ u ∈ t :: rest, u.groupId = s.groupId then FlowControllerKind.oneGroup
    else FlowControllerKind.defaultController

/-- Modelled from the spec: PiiDefaultOperation::createFlowController picks
the strategy from the currently connected inputs. -/
def createFlowController (l : List InputSocket) : FlowControllerKind :=
  selectController (connectedInputs l)

/-- All connected inputs of the operation share one group. -/
def allInOneGroup (l : List InputSocket) : Prop :=
  ∀ s ∈ connectedInputs l, ∀ t ∈ connectedInputs l, s.groupId = t.groupId

/-- The non-negative group ids having at least one connected socket, in
ascending order and without duplicates. -/
def connectedGroupIds (l : List InputSocket) : List Int :=
  List.insertionSort (fun a b => a ≤ b)
    ((((connectedInputs l).map fun s => s.groupId).filter fun g => decide (0 ≤ g)).dedup)

/-- The pairs of consecutive elements of a list. -/
def consecutivePairs : List Int → List (Int × Int)
  | a :: b :: rest => (a, b) :: consecutivePairs (b :: rest)
  | _ => []

/-- Modelled from the spec: the loose parent-child relationships configured
into PiiDefaultFlowController (createFlowController doc comment, lines 341
to 347): relationships are assigned between groups with a non-negative
group id and at least one connected socket, in the order of increasing
magnitude; each pair is (parent, child). -/
def looseRelationships (l : List InputSocket) : List (Int × Int) :=
  consecutivePairs (connectedGroupIds l)

/-- The ThreadingCapability flag NonThreaded (threadCount 0 allowed). -/
def NonThreaded : Nat := 1

/-- The ThreadingCapability flag SingleThreaded (threadCount 1 allowed). -/
def SingleThreaded : Nat := 2

/-- The ThreadingCapability flag MultiThreaded (threadCount above 1 allowed). -/
def MultiThreaded : Nat := 4

/-- Modelled from the spec: isAcceptableThreadCount (body not under src/):
a thread count is acceptable exactly when the capability flag matching it
(NonThreaded for 0, SingleThreaded for 1, MultiThreaded for more than one)
is among the declared threading capabilities. -/
def isAcceptableThreadCount (caps : Nat) (tc : Int) : Bool :=
  if tc = 0 then (caps &&& NonThreaded) != 0
  else if tc = 1 then (caps &&& SingleThreaded) != 0
  else if 1 < tc then (caps &&& MultiThreaded) != 0
  else false

/-- The configuration fields of PiiDefaultOperation::Data that the
threadCount discipline involves. -/
structure OperationData where
  state : OpState
  bChecked : Bool
  iThreadCount : Int
  threadingCapabilities : Nat
deriving DecidableEq

/-- Modelled from the spec: setThreadCount (body not under src/; doc
comment in PiiDefaultOperation.h lines 84 to 89): the thread count may only
be changed when the operation is Stopped or Paused, only before check has
run, and only to a value allowed by the declared threading capabilities;
in every other situation the call has no effect. -/
def setThreadCount (d : OperationData) (n : Int) : OperationData :=
  if (d.state = OpState.Stopped ∨ d.state = OpState.Paused) ∧ d.bChecked = false ∧
      isAcceptableThreadCount d.threadingCapabilities n = true then
    { d with iThreadCount := n }
  else d

/-- Modelled from the spec: start (body not under src/; doc comment in
PiiDefaultOperation.h lines 172 to 176 and spec section 4.3): if check has
not been called, a warning is written and the call returns with nothing
changed; from a checked Stopped or Paused operation the processor is
activated and the operation moves toward Running, consuming the checked
mark. The Boolean result records whether the warning was written. -/
def start (d : OperationData) : OperationData × Bool :=
  if d.bChecked = false then (d, true)
  else if d.state = OpState.Stopped ∨ d.state = OpState.Paused then
    ({ d with state := OpState.Running, bChecked := false }, false)
  else (d, false)

/-- The pause-relevant view of an operation: its lifecycle state and, for
every connected input, whether the pause propagation from upstream has been
observed on that input. -/
structure PausingOp where
  st : OpState
  observed : List Bool
deriving DecidableEq

/-- Modelled from the spec: pause (body not under src/; doc comment in
PiiDefaultOperation.h lines 184 to 195): called on a Running operation with
no connected inputs it turns the state to Paused immediately; with
connected inputs it turns the state to Pausing, waiting for pause signals
from the previous operations in the pipeline. -/
def pause (op : PausingOp) : PausingOp :=
  if op.st = OpState.Running then
    if op.observed.length = 0 then { op with st := OpState.Paused }
    else { op with st := OpState.Pausing }
  else op

/-- Modelled from the spec: a Pausing operation records the pause
propagation observed on connected input i; once every connected input has
been observed, the operation settles to Paused. -/
def observePause (op : PausingOp) (i : Nat) : PausingOp :=
  if op.st = OpState.Pausing then
    let obs := op.observed.set i true
    if obs.all (fun b => b) then { st := OpState.Paused, observed := obs }
    else { st := OpState.Pausing, observed := obs }
  else op

/-- Runs a sequence of pause-propagation observations. -/
def runPause (op : PausingOp) (trace : List Nat) : PausingOp :=
  trace.foldl observePause op

/-- A Running operation with n connected inputs, none of which has seen the
pause propagation yet, right after pause() was called on it. -/
def initialPausingOp (n : Nat) : PausingOp :=
  pause ⟨OpState.Running, List.replicate n false⟩

/-- The state of the ProcessLock of one operation: how many readers
(process/syncEvent calls in progress) and whether a writer (a setProperty
call in progress) holds it. -/
structure LockState where
  readers : Nat
  writer : Bool
deriving DecidableEq

/-- Modelled from the spec: one step of the ProcessLock protocol
(PiiReadWriteLock implementation not under src/; spec sections 3 and 5,
processLocked and sendSyncEvents in PiiDefaultOperation.h lines 390 to
400). process and syncEvent acquire the lock for reading; setProperty
acquires it for writing and releases it before returning success. A read
acquisition is granted only when no writer holds the lock and, by the
single-caller discipline of the non-threaded and single-threaded
processors, only when no other reader is inside unless threadCount exceeds
one. A write acquisition is granted only when neither a reader nor a writer
holds the lock. -/
inductive LockStep (tc : Int) : LockState → LockState → Prop where
  | beginRead (s : LockState) : s.writer = false → 1 < tc ∨ s.readers = 0 →
      LockStep tc s ⟨s.readers + 1, false⟩
  | endRead (s : LockState) : 0 < s.readers →
      LockStep tc s ⟨s.readers - 1, s.writer⟩
  | beginWrite (s : LockState) : s.writer = false → s.readers = 0 →
      LockStep tc s ⟨0, true⟩
  | endWrite (s : LockState) : s.writer = true →
      LockStep tc s ⟨s.readers, false⟩

/-- The ProcessLock states reachable from the unlocked state under thread
count tc. -/
inductive LockReachable (tc : Int) : LockState → Prop where
  | init : LockReachable tc ⟨0, false⟩
  | step {s t : LockState} : LockReachable tc s → LockStep tc s t →
      LockReachable tc t

/-- An event observable at the inputs of an operation: the delivery of an
object to a group, or the EndInput sync event of a group, each tagged with
the logical synchronization unit it belongs to. -/
inductive TraceEvent where
  | object (groupId : Int) (unit : Nat)
  | endInput (groupId : Int) (unit : Nat)
deriving DecidableEq

/-- The synchronization unit an event belongs to. -/
def TraceEvent.unit : TraceEvent → Nat
  | TraceEvent.object _ u => u
  | TraceEvent.endInput _ u => u

/-- Modelled from the spec: the event trace of one synchronization unit u
(spec sections 3 and 4.1): first the objects of unit u are delivered to the
groups (in the arbitrary interleaving objs u), then the flow controller
emits the EndInput events bottom-up, every child group before its parent,
that is, in order of decreasing group id. chain lists the related group
ids in ascending order, each group the loose parent of the next. -/
def unitTrace (chain : List Int) (objs : Nat → List Int) (u : Nat) : List TraceEvent :=
  ((objs u).map fun g => TraceEvent.object g u) ++
    (chain.reverse.map fun g => TraceEvent.endInput g u)

/-- Modelled from the spec: the full event trace over the first n
synchronization units, unit after unit. -/
def fullTrace (chain : List Int) (objs : Nat → List Int) : Nat → List TraceEvent
  | 0 => []
  | n + 1 => fullTrace chain objs n ++ unitTrace chain objs n

/-! ## Helper lemmas on lists -/

theorem getD_range_map {α : Type} (f : Nat → α) (n i : Nat) (d : α) (h : i < n) :
    ((List.range n).map f).getD i d = f i := by
  rw [List.getD_eq_getElem?_getD, List.getElem?_map, List.getElem?_range h]
  rfl

theorem getD_set_self {α : Type} (a d : α) :
    ∀ (l : List α) (i : Nat), i < l.length → (l.set i a).getD i d = a
  | [], i, h => absurd h (by simp)
  | x :: xs, 0, _ => rfl
  | x :: xs, k + 1, h => by
    have hstep : (x :: xs).set (k + 1) a = x :: xs.set k a := rfl
    rw [hstep, List.getD_cons_succ]
    exact getD_set_self a d xs k (Nat.succ_lt_succ_iff.mp h)

theorem getD_set_ne {α : Type} (a d : α) :
    ∀ (l : List α) (i j : Nat), i ≠ j → (l.set i a).getD j d = l.getD j d
  | [], _, _, _ => rfl
  | x :: xs, 0, 0, h => absurd rfl h
  | x :: xs, 0, j + 1, _ => by
    have hstep : (x :: xs).set 0 a = a :: xs := rfl
    rw [hstep, List.getD_cons_succ, List.getD_cons_succ]
  | x :: xs, i + 1, 0, _ => rfl
  | x :: xs, i + 1, j + 1, h => by
    have hstep : (x :: xs).set (i + 1) a = x :: xs.set i a := rfl
    rw [hstep, List.getD_cons_succ, List.getD_cons_succ]
    exact getD_set_ne a d xs i j (fun e => h (by rw [e]))

theorem PiiConfusionMatrix.entry_resized (m : PiiConfusionMatrix) (n i j : Nat)
    (hi : i < n) (hj : j < n) : (m.resized n).entry i j = m.entry i j := by
  show (((List.range n).map fun i => (List.range n).map fun j => m.entry i j).getD
      i []).getD j 0 = m.entry i j
  rw [getD_range_map _ n i [] hi, getD_range_map _ n j 0 hj]

theorem PiiConfusionMatrix.size_resized (m : PiiConfusionMatrix) (n : Nat) :
    (m.resized n).size = n := by
  simp [PiiConfusionMatrix.resized, PiiConfusionMatrix.size]

/-! ## Claim theorems for the leaf components -/

/-- C9: for all functions f, g, h and inputs x, y, unaryCompose(f1, g1)(x)
computes f1(g1(x)); binaryCompose(f, g, h) used as a unary function computes
f(g(x), h(x)); and used as a binary function computes f(g(x), h(y)). -/
theorem pii_C9 (α₁ α₂ β₁ β₂ γ : Type) (f : β₁ → β₂ → γ) (g : α₁ → β₁)
    (h2 : α₁ → β₂) (h3 : α₂ → β₂) (f1 : β₁ → γ) (g1 : α₁ → β₁) (x : α₁) (y : α₂) :
    (unaryCompose f1 g1).apply x = f1 (g1 x) ∧
    (binaryCompose f g h2).applyUnary x = f (g x) (h2 x) ∧
    (binaryCompose f g h3).applyBinary x y = f (g x) (h3 y) :=
  ⟨rfl, rfl, rfl⟩

theorem CountFunction.afterCalls_mk (v d : Int) (n : Nat) :
    (CountFunction.mk v d).afterCalls n = ⟨v + n * d, d⟩ := by
  induction n with
  | zero => simp [CountFunction.afterCalls]
  | succ n ih =>
    show ((CountFunction.mk v d).afterCalls n).callOp.2 = _
    rw [ih]
    show CountFunction.mk (v + n * d + d) d = CountFunction.mk (v + (n + 1 : Nat) * d) d
    have : v + (n : Int) * d + d = v + ((n : Nat) + 1 : Int) * d := by ring
    rw [this]
    push_cast
    ring_nf

/-- C10: for a Pii::CountFunction constructed with initial value v and
increment d, the n-th call of operator(), counting from 1, returns
v + (n - 1) * d, and after n calls count() returns v + n * d. -/
theorem pii_C10 (v d : Int) (n : Nat) (h : 1 ≤ n) :
    (CountFunction.mk v d).nthCall n = v + ((n : Int) - 1) * d ∧
    ((CountFunction.mk v d).afterCalls n).count = v + (n : Int) * d := by
  constructor
  · show ((CountFunction.mk v d).afterCalls (n - 1)).callOp.1 = _
    rw [CountFunction.afterCalls_mk]
    show v + ((n - 1 : Nat) : Int) * d = v + ((n : Int) - 1) * d
    have : ((n - 1 : Nat) : Int) = (n : Int) - 1 := by omega
    rw [this]
  · rw [CountFunction.afterCalls_mk]
    rfl

theorem pii_C10_witness :
    1 ≤ 3 ∧
      ((CountFunction.mk 5 2).nthCall 3 = 5 + ((3 : Int) - 1) * 2 ∧
        ((CountFunction.mk 5 2).afterCalls 3).count = 5 + (3 : Int) * 2) :=
  ⟨by decide, pii_C10 5 2 3 (by decide)⟩

/-- C8: addEntry(correctClass, classification) increments the entry at row
correctClass, column classification by one, extends the matrix dimensions
when an index exceeds them, leaves every other entry unchanged, and leaves
the matrix completely unchanged when either index is negative. -/
theorem pii_C8 (m : PiiConfusionMatrix) (cc cl : Int) :
    (cc < 0 ∨ cl < 0 → m.addEntry cc cl = m) ∧
    (0 ≤ cc → 0 ≤ cl →
      (m.addEntry cc cl).size = max m.size (max cc.toNat cl.toNat + 1) ∧
      (m.addEntry cc cl).entry cc.toNat cl.toNat = m.entry cc.toNat cl.toNat + 1 ∧
      ∀ i j : Nat, i < (m.addEntry cc cl).size → j < (m.addEntry cc cl).size →
        i ≠ cc.toNat ∨ j ≠ cl.toNat → (m.addEntry cc cl).entry i j = m.entry i j) := by
  constructor
  · intro hneg
    unfold PiiConfusionMatrix.addEntry
    rw [if_pos hneg]
  · intro hcc hcl
    have hneg : ¬(cc < 0 ∨ cl < 0) := by omega
    set r := cc.toNat with hr
    set c := cl.toNat with hc
    set n := max m.size (max r c + 1) with hn
    have hrn : r < n := by omega
    have hcn : c < n := by omega
    have hrows : (m.addEntry cc cl).rows =
        (m.resized n).rows.set r
          (((m.resized n).rows.getD r []).set c ((m.resized n).entry r c + 1)) := by
      unfold PiiConfusionMatrix.addEntry
      rw [if_neg hneg]
    have hlen : (m.resized n).rows.length = n := m.size_resized n
    have hrowr : (m.resized n).rows.getD r [] = (List.range n).map fun j => m.entry r j := by
      show ((List.range n).map fun i => (List.range n).map fun j => m.entry i j).getD
          r [] = _
      rw [getD_range_map _ n r [] hrn]
    have hrowlen : ((m.resized n).rows.getD r []).length = n := by
      rw [hrowr]; simp
    refine ⟨?_, ?_, ?_⟩
    · show (m.addEntry cc cl).rows.length = n
      rw [hrows, List.length_set, hlen]
    · show ((m.addEntry cc cl).rows.getD r []).getD c 0 = m.entry r c + 1
      rw [hrows, getD_set_self _ _ _ r (by rw [hlen]; exact hrn),
        getD_set_self _ _ _ c (by rw [hrowlen]; exact hcn),
        m.entry_resized n r c hrn hcn]
    · intro i j hi hj hne
      have hi2 : i < n := by
        have : (m.addEntry cc cl).size = n := by
          show (m.addEntry cc cl).rows.length = n
          rw [hrows, List.length_set, hlen]
        rw [this] at hi; exact hi
      have hj2 : j < n := by
        have : (m.addEntry cc cl).size = n := by
          show (m.addEntry cc cl).rows.length = n
          rw [hrows, List.length_set, hlen]
        rw [this] at hj; exact hj
      show ((m.addEntry cc cl).rows.getD i []).getD j 0 = m.entry i j
      rcases eq_or_ne i r with hir | hir
      · have hjc : j ≠ c := by
          rcases hne with h | h
          · exact absurd hir h
          · exact h
        rw [hrows, hir, getD_set_self _ _ _ r (by rw [hlen]; exact hrn),
          getD_set_ne _ _ _ c j (fun e => hjc e.symm)]
        have := m.entry_resized n r j hrn hj2
        unfold PiiConfusionMatrix.entry at this
        rw [this]
        rfl
      · rw [hrows, getD_set_ne _ _ _ r i (fun e => hir e.symm)]
        exact m.entry_resized n i j hi2 hj2

theorem pii_C8_witness :
    ((PiiConfusionMatrix.mk [[5]]).addEntry 2 0).entry 2 0 =
      (PiiConfusionMatrix.mk [[5]]).entry 2 0 + 1 :=
  ((pii_C8 (PiiConfusionMatrix.mk [[5]]) 2 0).2 (by decide) (by decide)).2.1

/-! ## Claim theorems for the scheduling core -/

theorem selectController_spec (cs : List InputSocket) :
    (selectController cs = FlowControllerKind.none ↔ cs.length = 0) ∧
    (selectController cs = FlowControllerKind.oneInput ↔ cs.length = 1) ∧
    (selectController cs = FlowControllerKind.oneGroup ↔
      2 ≤ cs.length ∧ ∀ a ∈ cs, ∀ b ∈ cs, a.groupId = b.groupId) ∧
    (selectController cs = FlowControllerKind.defaultController ↔
      2 ≤ cs.length ∧ ¬∀ a ∈ cs, ∀ b ∈ cs, a.groupId = b.groupId) := by
  match cs with
  | [] => simp [selectController]
  | [s] => simp [selectController]
  | s :: t :: rest =>
    have hequiv : (∀ u ∈ t :: rest, u.groupId = s.groupId) ↔
        ∀ a ∈ s :: t :: rest, ∀ b ∈ s :: t :: rest, a.groupId = b.groupId := by
      constructor
      · intro hall a ha b hb
        have hone : ∀ x ∈ s :: t :: rest, x.groupId = s.groupId := by
          intro x hx
          rcases List.mem_cons.mp hx with hx | hx
          · rw [hx]
          · exact hall x hx
        rw [hone a ha, hone b hb]
      · intro h u hu
        exact h u (List.mem_cons_of_mem s hu) s (List.mem_cons_self s (t :: rest))
    by_cases hall : ∀ u ∈ t :: rest, u.groupId = s.groupId
    · have hsel : selectController (s :: t :: rest) = FlowControllerKind.oneGroup := by
        show (if ∀ u ∈ t :: rest, u.groupId = s.groupId then FlowControllerKind.oneGroup
          else FlowControllerKind.defaultController) = FlowControllerKind.oneGroup
        rw [if_pos hall]
      have hgrp := hequiv.mp hall
      rw [hsel]
      refine ⟨⟨fun h => absurd h (by decide), fun h => by simp at h⟩,
        ⟨fun h => absurd h (by decide),
          fun h => by simp only [List.length_cons] at h; omega⟩,
        ⟨fun _ => ⟨by simp only [List.length_cons]; omega, hgrp⟩, fun _ => rfl⟩,
        ⟨fun h => absurd h (by decide), fun h => absurd hgrp h.2⟩⟩
    · have hsel : selectController (s :: t :: rest) =
          FlowControllerKind.defaultController := by
        show (if ∀ u ∈ t :: rest, u.groupId = s.groupId then FlowControllerKind.oneGroup
          else FlowControllerKind.defaultController) = FlowControllerKind.defaultController
        rw [if_neg hall]
      have hgrp : ¬∀ a ∈ s :: t :: rest, ∀ b ∈ s :: t :: rest,
          a.groupId = b.groupId := fun hyes => hall (hequiv.mpr hyes)
      rw [hsel]
      refine ⟨⟨fun h => absurd h (by decide), fun h => by simp at h⟩,
        ⟨fun h => absurd h (by decide),
          fun h => by simp only [List.length_cons] at h; omega⟩,
        ⟨fun h => absurd h (by decide), fun h => absurd h.2 hgrp⟩,
        ⟨fun _ => ⟨by simp only [List.length_cons]; omega, hgrp⟩, fun _ => rfl⟩⟩

/-- C2: check selects the FlowController by the connected inputs: zero
connected inputs yield no controller; exactly one yields
PiiOneInputFlowController; several all in one group yield
PiiOneGroupFlowController; otherwise PiiDefaultFlowController is used. -/
theorem pii_C2 (l : List InputSocket) :
    (createFlowController l = FlowControllerKind.none ↔
      (connectedInputs l).length = 0) ∧
    (createFlowController l = FlowControllerKind.oneInput ↔
      (connectedInputs l).length = 1) ∧
    (createFlowController l = FlowControllerKind.oneGroup ↔
      2 ≤ (connectedInputs l).length ∧ allInOneGroup l) ∧
    (createFlowController l = FlowControllerKind.defaultController ↔
      2 ≤ (connectedInputs l).length ∧ ¬allInOneGroup l) :=
  selectController_spec (connectedInputs l)

theorem pii_C2_witness :
    createFlowController [⟨true, 7⟩, ⟨false, 3⟩, ⟨true, 7⟩] =
      FlowControllerKind.oneGroup :=
  (pii_C2 [⟨true, 7⟩, ⟨false, 3⟩, ⟨true, 7⟩]).2.2.1.mpr
    ⟨by decide, by unfold allInOneGroup; decide⟩

/-- C5: setThreadCount changes the thread count only when the operation is
Stopped or Paused, check has not yet run, and the value is within the
declared ThreadingCapabilities; in every other state (Running included),
after check, or with an unsupported value the call leaves the
configuration unchanged (a no-op, not an error), unsupported values are
rejected regardless of state, and any actual mutation certifies a
checked-free Stopped or Paused operation and an acceptable value. -/
theorem pii_C5 (d : OperationData) (n : Int) :
    (¬(d.state = OpState.Stopped ∨ d.state = OpState.Paused) →
      setThreadCount d n = d) ∧
    (d.state = OpState.Running → setThreadCount d n = d) ∧
    (d.bChecked = true → setThreadCount d n = d) ∧
    (isAcceptableThreadCount d.threadingCapabilities n = false →
      setThreadCount d n = d) ∧
    ((setThreadCount d n).iThreadCount ≠ d.iThreadCount →
      (d.state = OpState.Stopped ∨ d.state = OpState.Paused) ∧
        d.bChecked = false ∧
        isAcceptableThreadCount d.threadingCapabilities n = true) ∧
    ((d.state = OpState.Stopped ∨ d.state = OpState.Paused) → d.bChecked = false →
      isAcceptableThreadCount d.threadingCapabilities n = true →
      (setThreadCount d n).iThreadCount = n ∧
      (setThreadCount d n).state = d.state ∧
      (setThreadCount d n).bChecked = d.bChecked ∧
      (setThreadCount d n).threadingCapabilities = d.threadingCapabilities) := by
  refine ⟨?_, ?_, ?_, ?_, ?_, ?_⟩
  · intro h
    unfold setThreadCount
    rw [if_neg]
    rintro ⟨hs, -, -⟩
    exact h hs
  · intro h; simp [setThreadCount, h]
  · intro h; simp [setThreadCount, h]
  · intro h; simp [setThreadCount, h]
  · intro hmut
    by_cases hcond : (d.state = OpState.Stopped ∨ d.state = OpState.Paused) ∧
        d.bChecked = false ∧
        isAcceptableThreadCount d.threadingCapabilities n = true
    · exact hcond
    · exfalso
      apply hmut
      unfold setThreadCount
      rw [if_neg hcond]
  · intro hs hc ha
    unfold setThreadCount
    rw [if_pos ⟨hs, hc, ha⟩]
    exact ⟨rfl, rfl, rfl, rfl⟩

theorem pii_C5_witness :
    (setThreadCount ⟨OpState.Stopped, false, 0, 3⟩ 1).iThreadCount = 1 ∧
    (setThreadCount ⟨OpState.Stopped, false, 0, 3⟩ 1).state = OpState.Stopped ∧
    (setThreadCount ⟨OpState.Stopped, false, 0, 3⟩ 1).bChecked = false ∧
    (setThreadCount ⟨OpState.Stopped, false, 0, 3⟩ 1).threadingCapabilities = 3 :=
  (pii_C5 ⟨OpState.Stopped, false, 0, 3⟩ 1).2.2.2.2.2 (Or.inl rfl) rfl (by decide)

/-- C7: calling start on an operation for which check has not been called
is rejected: the warning is written, the call returns and the state is
unchanged; start reaches Running only from a checked Stopped or Paused
operation. -/
theorem pii_C7 (d : OperationData) :
    (d.bChecked = false → start d = (d, true)) ∧
    ((start d).1.state = OpState.Running → d.state = OpState.Running ∨
      (d.bChecked = true ∧ (d.state = OpState.Stopped ∨ d.state = OpState.Paused))) := by
  constructor
  · intro h
    unfold start
    rw [if_pos h]
  · intro h
    unfold start at h
    by_cases hc : d.bChecked = false
    · rw [if_pos hc] at h
      exact Or.inl h
    · rw [if_neg hc] at h
      have hc2 : d.bChecked = true := by
        revert hc; cases d.bChecked <;> simp
      by_cases hs : d.state = OpState.Stopped ∨ d.state = OpState.Paused
      · exact Or.inr ⟨hc2, hs⟩
      · rw [if_neg hs] at h
        exact Or.inl h

theorem pii_C7_witness :
    start ⟨OpState.Stopped, false, 0, 3⟩ = (⟨OpState.Stopped, false, 0, 3⟩, true) :=
  (pii_C7 ⟨OpState.Stopped, false, 0, 3⟩).1 rfl

/-- C1: in every reachable state of the ProcessLock protocol, a write
acquisition (a setProperty call) never overlaps any read acquisition (a
process or syncEvent call in progress), and two or more read acquisitions
overlap only when threadCount exceeds one; hence setProperty never returns
success while a process or syncEvent call is in progress. -/
theorem pii_C1 (tc : Int) (s : LockState) (h : LockReachable tc s) :
    (s.writer = true → s.readers = 0) ∧ (2 ≤ s.readers → 1 < tc) := by
  induction h with
  | init => exact ⟨fun _ => rfl, fun h2 => absurd h2 (by decide)⟩
  | step hr hstep ih =>
    cases hstep with
    | beginRead hw hg =>
      refine ⟨fun hcontra => Bool.noConfusion hcontra, fun h2 => ?_⟩
      have h2a : 2 ≤ _ + 1 := h2
      rcases hg with htc | hz
      · exact htc
      · omega
    | endRead hpos =>
      refine ⟨fun hw => ?_, fun h2 => ?_⟩
      · have h0 := ih.1 hw
        show _ - 1 = 0
        omega
      · have h2a : 2 ≤ _ - 1 := h2
        exact ih.2 (by omega)
    | beginWrite hw hz =>
      exact ⟨fun _ => rfl, fun h2 => absurd (show (2 : Nat) ≤ 0 from h2) (by decide)⟩
    | endWrite hw =>
      exact ⟨fun hcontra => Bool.noConfusion hcontra, fun h2 => ih.2 h2⟩

theorem pii_C1_witness :
    ((⟨2, false⟩ : LockState).writer = true → (⟨2, false⟩ : LockState).readers = 0) ∧
    (2 ≤ (⟨2, false⟩ : LockState).readers → 1 < (4 : Int)) :=
  pii_C1 4 ⟨2, false⟩
    (LockReachable.step
      (LockReachable.step LockReachable.init
        (LockStep.beginRead ⟨0, false⟩ rfl (Or.inr rfl)))
      (LockStep.beginRead ⟨1, false⟩ rfl (Or.inl (by decide))))

theorem getD_of_length_le {α : Type} (l : List α) (i : Nat) (d : α)
    (h : l.length ≤ i) : l.getD i d = d := by
  rw [List.getD_eq_getElem?_getD, List.getElem?_eq_none h]
  rfl

theorem all_true_getD (l : List Bool) (h : l.all (fun b => b) = true) (j : Nat)
    (hj : j < l.length) : l.getD j false = true := by
  rw [List.getD_eq_getElem?_getD, List.getElem?_eq_getElem hj]
  exact List.all_eq_true.mp h _ (List.getElem_mem hj)

theorem getD_all_true (l : List Bool)
    (h : ∀ j, j < l.length → l.getD j false = true) :
    l.all (fun b => b) = true := by
  rw [List.all_eq_true]
  intro x hx
  rcases List.mem_iff_getElem.mp hx with ⟨i, hi, hval⟩
  have hfl := h i hi
  rw [List.getD_eq_getElem?_getD, List.getElem?_eq_getElem hi] at hfl
  show x = true
  rw [← hval]
  exact hfl

theorem runPause_spec (trace : List Nat) :
    ∀ op : PausingOp,
      op.st = OpState.Pausing ∨ op.st = OpState.Paused →
      (op.st = OpState.Paused ↔ op.observed.all (fun b => b) = true) →
      (runPause op trace).observed.length = op.observed.length ∧
      ((runPause op trace).st = OpState.Pausing ∨
        (runPause op trace).st = OpState.Paused) ∧
      ((runPause op trace).st = OpState.Paused ↔
        (runPause op trace).observed.all (fun b => b) = true) ∧
      ∀ j : Nat, ((runPause op trace).observed.getD j false = true ↔
        op.observed.getD j false = true ∨ (j ∈ trace ∧ j < op.observed.length)) := by
  induction trace with
  | nil =>
    intro op h1 h2
    refine ⟨rfl, h1, h2, fun j => ?_⟩
    simp [runPause]
  | cons t ts ih =>
    intro op h1 h2
    have hfold : runPause op (t :: ts) = runPause (observePause op t) ts := rfl
    have hflag : ∀ j : Nat, ((op.observed.set t true).getD j false = true ↔
        op.observed.getD j false = true ∨ (j = t ∧ j < op.observed.length)) := by
      intro j
      rcases eq_or_ne j t with rfl | hjt
      · by_cases hlt : j < op.observed.length
        · rw [getD_set_self true false _ j hlt]
          exact iff_of_true rfl (Or.inr ⟨rfl, hlt⟩)
        · rw [getD_of_length_le _ _ _ (by rw [List.length_set]; omega),
            getD_of_length_le _ _ _ (by omega)]
          simp [hlt]
      · rw [getD_set_ne true false op.observed t j (fun e => hjt e.symm)]
        simp [hjt]
    have hstep : (observePause op t).observed.length = op.observed.length ∧
        ((observePause op t).st = OpState.Pausing ∨
          (observePause op t).st = OpState.Paused) ∧
        ((observePause op t).st = OpState.Paused ↔
          (observePause op t).observed.all (fun b => b) = true) ∧
        ∀ j : Nat, ((observePause op t).observed.getD j false = true ↔
          op.observed.getD j false = true ∨ (j = t ∧ j < op.observed.length)) := by
      rcases h1 with hP | hD
      · by_cases hall2 : (op.observed.set t true).all (fun b => b) = true
        · have hob : observePause op t =
              ⟨OpState.Paused, op.observed.set t true⟩ := by
            unfold observePause
            rw [if_pos hP]
            show (if (op.observed.set t true).all (fun b => b) = true then
                (⟨OpState.Paused, op.observed.set t true⟩ : PausingOp)
              else ⟨OpState.Pausing, op.observed.set t true⟩) = _
            rw [if_pos hall2]
          refine ⟨by rw [hob]; exact List.length_set _ _ _, by rw [hob]; exact Or.inr rfl,
            ?_, fun j => by rw [hob]; exact hflag j⟩
          rw [hob]
          exact iff_of_true rfl hall2
        · have hob : observePause op t =
              ⟨OpState.Pausing, op.observed.set t true⟩ := by
            unfold observePause
            rw [if_pos hP]
            show (if (op.observed.set t true).all (fun b => b) = true then
                (⟨OpState.Paused, op.observed.set t true⟩ : PausingOp)
              else ⟨OpState.Pausing, op.observed.set t true⟩) = _
            rw [if_neg hall2]
          refine ⟨by rw [hob]; exact List.length_set _ _ _, by rw [hob]; exact Or.inl rfl,
            ?_, fun j => by rw [hob]; exact hflag j⟩
          rw [hob]
          exact iff_of_false (fun e => OpState.noConfusion e) hall2
      · have hob : observePause op t = op := by
          unfold observePause
          rw [if_neg (show ¬op.st = OpState.Pausing by rw [hD]; decide)]
        refine ⟨by rw [hob], by rw [hob]; exact Or.inr hD, by rw [hob]; exact h2,
          fun j => ?_⟩
        rw [hob]
        constructor
        · exact Or.inl
        · rintro (hl | ⟨he, hlt⟩)
          · exact hl
          · exact all_true_getD _ (h2.mp hD) j hlt
    obtain ⟨s1, s2, s3, s4⟩ := hstep
    obtain ⟨l1, l2, l3, l4⟩ := ih (observePause op t) s2 s3
    refine ⟨?_, ?_, ?_, fun j => ?_⟩
    · rw [hfold, l1, s1]
    · rw [hfold]; exact l2
    · rw [hfold]; exact l3
    · rw [hfold, l4 j, s1, s4 j]
      simp only [List.mem_cons]
      constructor
      · rintro ((h | ⟨he, hlt⟩) | ⟨hm, hlt⟩)
        · exact Or.inl h
        · exact Or.inr ⟨Or.inl he, hlt⟩
        · exact Or.inr ⟨Or.inr hm, hlt⟩
      · rintro (h | ⟨he | hm, hlt⟩)
        · exact Or.inl (Or.inl h)
        · exact Or.inl (Or.inr ⟨he, hlt⟩)
        · exact Or.inr ⟨hm, hlt⟩

/-- C6: pause on a Running operation with no connected inputs settles to
Paused immediately; with connected inputs the operation turns to Pausing
and settles to Paused exactly when the pause propagation has been observed
on every connected input; an input never observed keeps the operation
Pausing forever. -/
theorem pii_C6 (n : Nat) (trace : List Nat) (i : Nat) :
    (n = 0 → (initialPausingOp n).st = OpState.Paused) ∧
    (n ≠ 0 → (initialPausingOp n).st = OpState.Pausing) ∧
    (i < n → i ∉ trace →
      (runPause (initialPausingOp n) trace).st = OpState.Pausing) ∧
    (n ≠ 0 → ((runPause (initialPausingOp n) trace).st = OpState.Paused ↔
      ∀ j, j < n → j ∈ trace)) := by
  have hinit : ∀ m : Nat, m ≠ 0 →
      initialPausingOp m = ⟨OpState.Pausing, List.replicate m false⟩ := by
    intro m hm
    unfold initialPausingOp pause
    rw [if_pos rfl, if_neg (by simp [hm])]
  have hflagrep : ∀ m j : Nat, (List.replicate m false).getD j false = false := by
    intro m j
    by_cases hj : j < m
    · simp [List.getD_eq_getElem?_getD, List.getElem?_replicate, hj]
    · exact getD_of_length_le _ _ _ (by simp; omega)
  have hallrep : ∀ m : Nat, m ≠ 0 →
      ¬(List.replicate m false).all (fun b => b) = true := by
    intro m hm hcon
    have hfl := all_true_getD _ hcon 0 (by simp; omega)
    rw [hflagrep] at hfl
    exact Bool.noConfusion hfl
  refine ⟨?_, ?_, ?_, ?_⟩
  · rintro rfl
    decide
  · intro hn
    rw [hinit n hn]
  · intro hin hitr
    have hn : n ≠ 0 := by omega
    rw [hinit n hn]
    obtain ⟨l1, l2, l3, l4⟩ := runPause_spec trace
      ⟨OpState.Pausing, List.replicate n false⟩ (Or.inl rfl)
      ⟨fun hcon => OpState.noConfusion hcon, fun hcon => absurd hcon (hallrep n hn)⟩
    have hflagfalse : (runPause ⟨OpState.Pausing, List.replicate n false⟩
        trace).observed.getD i false = false := by
      cases hcase : (runPause ⟨OpState.Pausing, List.replicate n false⟩
          trace).observed.getD i false
      · rfl
      · exfalso
        rcases (l4 i).mp hcase with hl | ⟨hm, -⟩
        · rw [hflagrep] at hl; exact Bool.noConfusion hl
        · exact hitr hm
    have hnotP : ¬(runPause ⟨OpState.Pausing, List.replicate n false⟩
        trace).st = OpState.Paused := by
      intro hPd
      have hall := l3.mp hPd
      have hfl := all_true_getD _ hall i (by rw [l1]; simp; omega)
      rw [hflagfalse] at hfl
      exact Bool.noConfusion hfl
    rcases l2 with h | h
    · exact h
    · exact absurd h hnotP
  · intro hn
    rw [hinit n hn]
    obtain ⟨l1, l2, l3, l4⟩ := runPause_spec trace
      ⟨OpState.Pausing, List.replicate n false⟩ (Or.inl rfl)
      ⟨fun hcon => OpState.noConfusion hcon, fun hcon => absurd hcon (hallrep n hn)⟩
    constructor
    · intro hPd j hj
      have hall := l3.mp hPd
      have hfl := all_true_getD _ hall j (by rw [l1]; simp; omega)
      rcases (l4 j).mp hfl with hl | ⟨hm, -⟩
      · rw [hflagrep] at hl; exact Bool.noConfusion hl
      · exact hm
    · intro hcov
      apply l3.mpr
      apply getD_all_true
      intro j hj
      have hj2 : j < n := by
        rw [l1] at hj
        simpa using hj
      exact (l4 j).mpr (Or.inr ⟨hcov j hj2, by simp; omega⟩)

theorem pii_C6_witness :
    (runPause (initialPausingOp 2) [0]).st = OpState.Pausing :=
  (pii_C6 2 [0] 1).2.2.1 (by decide) (by decide)

theorem mem_connectedGroupIds (l : List InputSocket) (g : Int) :
    g ∈ connectedGroupIds l ↔
      0 ≤ g ∧ ∃ s ∈ l, s.connected = true ∧ s.groupId = g := by
  unfold connectedGroupIds connectedInputs
  rw [(List.perm_insertionSort _ _).mem_iff, List.mem_dedup, List.mem_filter,
    List.mem_map]
  constructor
  · rintro ⟨⟨s, hs, rfl⟩, hpos⟩
    rw [List.mem_filter] at hs
    exact ⟨by simpa using hpos, s, hs.1, hs.2, rfl⟩
  · rintro ⟨hpos, s, hsl, hconn, rfl⟩
    exact ⟨⟨s, List.mem_filter.mpr ⟨hsl, hconn⟩, rfl⟩, by simpa using hpos⟩

theorem pairwise_lt_connectedGroupIds (l : List InputSocket) :
    (connectedGroupIds l).Pairwise (fun a b => a < b) := by
  have hs : List.Sorted (fun a b : Int => a ≤ b) (connectedGroupIds l) :=
    List.sorted_insertionSort _ _
  have hnd : (connectedGroupIds l).Nodup :=
    (List.perm_insertionSort _ _).nodup_iff.mpr (List.nodup_dedup _)
  have hcomb := List.Pairwise.and hs hnd
  exact hcomb.imp fun hab => lt_of_le_of_ne hab.1 hab.2

theorem mem_consecutivePairs (p g : Int) :
    ∀ s : List Int, s.Pairwise (fun a b => a < b) →
      ((p, g) ∈ consecutivePairs s ↔
        p ∈ s ∧ g ∈ s ∧ p < g ∧ ∀ q ∈ s, q < g → q ≤ p) := by
  intro s
  induction s with
  | nil =>
    intro _
    simp [consecutivePairs]
  | cons a tail ih =>
    intro hs
    rcases List.pairwise_cons.mp hs with ⟨ha, htail⟩
    cases tail with
    | nil =>
      constructor
      · intro h
        exact absurd h (List.not_mem_nil _)
      · rintro ⟨hp, hg, hpg, -⟩
        rw [List.mem_singleton] at hp hg
        subst hp
        subst hg
        exact absurd hpg (lt_irrefl _)
    | cons b t =>
      have hcp : consecutivePairs (a :: b :: t) = (a, b) :: consecutivePairs (b :: t) :=
        rfl
      rw [hcp]
      have hab : a < b := ha b (List.mem_cons_self b t)
      rcases List.pairwise_cons.mp htail with ⟨hb, ht⟩
      constructor
      · intro h
        rcases List.mem_cons.mp h with he | hmem
        · injection he with h1 h2
          subst h1
          subst h2
          refine ⟨List.mem_cons_self _ _,
            List.mem_cons_of_mem _ (List.mem_cons_self _ _), hab, ?_⟩
          intro q hq hqb
          rcases List.mem_cons.mp hq with rfl | hq2
          · exact le_refl _
          · rcases List.mem_cons.mp hq2 with rfl | hq3
            · exact absurd hqb (lt_irrefl _)
            · exact absurd hqb (not_lt.mpr (le_of_lt (hb q hq3)))
        · obtain ⟨hp, hg, hpg, hmax⟩ := (ih htail).mp hmem
          refine ⟨List.mem_cons_of_mem _ hp, List.mem_cons_of_mem _ hg, hpg, ?_⟩
          intro q hq hqg
          rcases List.mem_cons.mp hq with rfl | hq2
          · rcases List.mem_cons.mp hp with he2 | hp2
            · rw [he2]
              exact le_of_lt hab
            · exact le_of_lt (lt_trans hab (hb p hp2))
          · exact hmax q hq2 hqg
      · rintro ⟨hp, hg, hpg, hmax⟩
        rcases List.mem_cons.mp hg with rfl | hg2
        · exfalso
          rcases List.mem_cons.mp hp with rfl | hp2
          · exact absurd hpg (lt_irrefl _)
          · exact absurd hpg (not_lt.mpr (le_of_lt (ha p hp2)))
        · rcases List.mem_cons.mp hp with rfl | hp2
          · rcases List.mem_cons.mp hg2 with rfl | hg3
            · exact List.mem_cons_self _ _
            · exfalso
              have hbg : b < g := hb g hg3
              have hba := hmax b
                (List.mem_cons_of_mem _ (List.mem_cons_self _ _)) hbg
              exact absurd hab (not_lt.mpr hba)
          · apply List.mem_cons_of_mem
            exact (ih htail).mpr
              ⟨hp2, hg2, hpg, fun q hq hqg => hmax q (List.mem_cons_of_mem _ hq) hqg⟩

/-- C3: in the general strategy, a loose parent/child pair (p, g) is
assigned exactly when p and g are non-negative group ids with at least one
connected socket and p is the next-lower such id below g; a group id
belongs to the relationship-carrying set exactly when it is non-negative
and has a connected socket, so negative-id groups and groups with no
connected socket participate in no relationship. -/
theorem pii_C3 (l : List InputSocket) (p g : Int) :
    ((p, g) ∈ looseRelationships l ↔
      p ∈ connectedGroupIds l ∧ g ∈ connectedGroupIds l ∧ p < g ∧
        ∀ q ∈ connectedGroupIds l, q < g → q ≤ p) ∧
    (g ∈ connectedGroupIds l ↔
      0 ≤ g ∧ ∃ s ∈ l, s.connected = true ∧ s.groupId = g) :=
  ⟨mem_consecutivePairs p g (connectedGroupIds l) (pairwise_lt_connectedGroupIds l),
    mem_connectedGroupIds l g⟩

theorem pii_C3_witness :
    ((0 : Int), (1 : Int)) ∈
      looseRelationships [⟨true, 1⟩, ⟨true, 0⟩, ⟨true, -1⟩, ⟨false, 5⟩] :=
  (pii_C3 [⟨true, 1⟩, ⟨true, 0⟩, ⟨true, -1⟩, ⟨false, 5⟩] 0 1).1.mpr (by decide)

theorem unit_of_mem_unitTrace (chain : List Int) (objs : Nat → List Int) (u : Nat)
    (e : TraceEvent) (h : e ∈ unitTrace chain objs u) : e.unit = u := by
  unfold unitTrace at h
  rcases List.mem_append.mp h with h2 | h2
  · rcases List.mem_map.mp h2 with ⟨g, -, rfl⟩
    rfl
  · rcases List.mem_map.mp h2 with ⟨g, -, rfl⟩
    rfl

theorem unit_lt_of_mem_fullTrace (chain : List Int) (objs : Nat → List Int) :
    ∀ (n : Nat) (e : TraceEvent), e ∈ fullTrace chain objs n → e.unit < n := by
  intro n
  induction n with
  | zero =>
    intro e h
    exact absurd h (List.not_mem_nil _)
  | succ m ih =>
    intro e h
    rcases List.mem_append.mp h with h2 | h2
    · exact Nat.lt_succ_of_lt (ih e h2)
    · rw [unit_of_mem_unitTrace chain objs m e h2]
      exact Nat.lt_succ_self m

theorem fullTrace_split (chain : List Int) (objs : Nat → List Int) :
    ∀ n u : Nat, u < n → ∃ S : List TraceEvent,
      fullTrace chain objs n =
        fullTrace chain objs u ++ unitTrace chain objs u ++ S ∧
      ∀ e ∈ S, u < e.unit := by
  intro n
  induction n with
  | zero =>
    intro u hu
    exact absurd hu (Nat.not_lt_zero u)
  | succ m ih =>
    intro u hu
    rcases Nat.lt_succ_iff_lt_or_eq.mp hu with hlt | heq
    · obtain ⟨S, hS, hmem⟩ := ih u hlt
      refine ⟨S ++ unitTrace chain objs m, ?_, ?_⟩
      · show fullTrace chain objs m ++ unitTrace chain objs m = _
        rw [hS, List.append_assoc]
      · intro e he
        rcases List.mem_append.mp he with h2 | h2
        · exact hmem e h2
        · rw [unit_of_mem_unitTrace chain objs m e h2]
          exact hlt
    · subst heq
      refine ⟨[], ?_, fun e he => absurd he (List.not_mem_nil _)⟩
      rw [List.append_nil]
      rfl

theorem consecutivePairs_decomp (p c : Int) :
    ∀ s : List Int, (p, c) ∈ consecutivePairs s → ∃ X Y, s = X ++ p :: c :: Y := by
  intro s
  induction s with
  | nil =>
    intro h
    exact absurd h (List.not_mem_nil _)
  | cons a tail ih =>
    cases tail with
    | nil =>
      intro h
      exact absurd h (List.not_mem_nil _)
    | cons b t =>
      intro h
      rcases List.mem_cons.mp h with he | hmem
      · injection he with h1 h2
        subst h1
        subst h2
        exact ⟨[], t, rfl⟩
      · obtain ⟨X, Y, hXY⟩ := ih hmem
        exact ⟨a :: X, Y, by rw [List.cons_append, ← hXY]⟩

theorem append_cons_inj {α : Type} {e : α} :
    ∀ {A C B D : List α}, e ∉ A → e ∉ C → A ++ e :: B = C ++ e :: D →
      A = C ∧ B = D := by
  intro A
  induction A with
  | nil =>
    intro C B D _ hC heq
    cases C with
    | nil =>
      rw [List.nil_append, List.nil_append] at heq
      injection heq with h1 h2
      exact ⟨rfl, h2⟩
    | cons c C2 =>
      rw [List.nil_append, List.cons_append] at heq
      injection heq with h1 h2
      exfalso
      apply hC
      rw [h1]
      exact List.mem_cons_self _ _
  | cons a A2 ih =>
    intro C B D hA hC heq
    cases C with
    | nil =>
      rw [List.nil_append, List.cons_append] at heq
      injection heq with h1 h2
      exfalso
      apply hA
      rw [h1]
      exact List.mem_cons_self _ _
    | cons c C2 =>
      rw [List.cons_append, List.cons_append] at heq
      injection heq with h1 h2
      have hA2 : e ∉ A2 := fun hm => hA (List.mem_cons_of_mem _ hm)
      have hC2 : e ∉ C2 := fun hm => hC (List.mem_cons_of_mem _ hm)
      obtain ⟨hAC, hBD⟩ := ih hA2 hC2 h2
      exact ⟨by rw [h1, hAC], hBD⟩

theorem fullTrace_canonical (chain : List Int) (objs : Nat → List Int) (n u : Nat)
    (g : Int) (hnd : chain.Nodup) (hu : u < n) (hg : g ∈ chain) :
    ∃ A₀ B₀ : List TraceEvent,
      fullTrace chain objs n = A₀ ++ TraceEvent.endInput g u :: B₀ ∧
      TraceEvent.endInput g u ∉ A₀ ∧
      TraceEvent.endInput g u ∉ B₀ ∧
      (∀ g2 : Int, TraceEvent.object g2 u ∉ B₀) ∧
      (∀ (g2 : Int) (v : Nat), u < v → TraceEvent.object g2 v ∉ A₀) ∧
      ∀ c : Int, (g, c) ∈ consecutivePairs chain → TraceEvent.endInput c u ∈ A₀ := by
  obtain ⟨S, hT, hS⟩ := fullTrace_split chain objs n u hu
  have hgrev : g ∈ chain.reverse := List.mem_reverse.mpr hg
  obtain ⟨R₁, R₂, hrev⟩ := List.append_of_mem hgrev
  have hndrev : chain.reverse.Nodup := List.nodup_reverse.mpr hnd
  rw [hrev] at hndrev
  have hgR₁ : g ∉ R₁ := by
    intro hm
    rcases List.nodup_append.mp hndrev with ⟨-, -, hdisj⟩
    exact hdisj hm (List.mem_cons_self _ _)
  have hgR₂ : g ∉ R₂ := by
    rcases List.nodup_append.mp hndrev with ⟨-, hnd2, -⟩
    exact (List.nodup_cons.mp hnd2).1
  refine ⟨fullTrace chain objs u ++ ((objs u).map fun g2 => TraceEvent.object g2 u) ++
      R₁.map (fun x => TraceEvent.endInput x u),
    R₂.map (fun x => TraceEvent.endInput x u) ++ S, ?_, ?_, ?_, ?_, ?_, ?_⟩
  · rw [hT]
    unfold unitTrace
    rw [hrev]
    simp only [List.map_append, List.map_cons, List.append_assoc, List.cons_append]
  · intro hm
    rcases List.mem_append.mp hm with hm2 | hm2
    · rcases List.mem_append.mp hm2 with hm3 | hm3
      · have hlt := unit_lt_of_mem_fullTrace chain objs u _ hm3
        exact absurd hlt (lt_irrefl u)
      · rcases List.mem_map.mp hm3 with ⟨g2, -, hcon⟩
        exact TraceEvent.noConfusion hcon
    · rcases List.mem_map.mp hm2 with ⟨x, hx, hcon⟩
      injection hcon with h1 h2
      rw [h1] at hx
      exact hgR₁ hx
  · intro hm
    rcases List.mem_append.mp hm with hm2 | hm2
    · rcases List.mem_map.mp hm2 with ⟨x, hx, hcon⟩
      injection hcon with h1 h2
      rw [h1] at hx
      exact hgR₂ hx
    · have hlt := hS _ hm2
      exact absurd hlt (lt_irrefl u)
  · intro g2 hm
    rcases List.mem_append.mp hm with hm2 | hm2
    · rcases List.mem_map.mp hm2 with ⟨x, -, hcon⟩
      exact TraceEvent.noConfusion hcon
    · have hlt := hS _ hm2
      exact absurd hlt (lt_irrefl u)
  · intro g2 v hv hm
    rcases List.mem_append.mp hm with hm2 | hm2
    · rcases List.mem_append.mp hm2 with hm3 | hm3
      · have hlt := unit_lt_of_mem_fullTrace chain objs u _ hm3
        have : v < u := hlt
        omega
      · rcases List.mem_map.mp hm3 with ⟨g3, -, hcon⟩
        injection hcon with h1 h2
        omega
    · rcases List.mem_map.mp hm2 with ⟨x, -, hcon⟩
      exact TraceEvent.noConfusion hcon
  · intro c hpair
    obtain ⟨X, Y, hXY⟩ := consecutivePairs_decomp g c chain hpair
    have hrev2 : chain.reverse = (Y.reverse ++ [c]) ++ g :: X.reverse := by
      rw [hXY]
      simp [List.reverse_append, List.append_assoc]
    have hgnot : g ∉ Y.reverse ++ [c] := by
      intro hm
      have hnd2 : (g :: c :: Y).Nodup := by
        rw [hXY] at hnd
        exact (List.nodup_append.mp hnd).2.1
      rcases List.mem_append.mp hm with hm2 | hm2
      · exact (List.nodup_cons.mp hnd2).1
          (List.mem_cons_of_mem _ (List.mem_reverse.mp hm2))
      · rw [List.mem_singleton] at hm2
        exact (List.nodup_cons.mp hnd2).1
          (by rw [hm2]; exact List.mem_cons_self _ _)
    obtain ⟨hR₁eq, -⟩ := append_cons_inj hgR₁ hgnot (hrev.symm.trans hrev2)
    have hcR₁ : c ∈ R₁ := by
      rw [hR₁eq]
      exact List.mem_append.mpr (Or.inr (List.mem_singleton.mpr rfl))
    exact List.mem_append.mpr (Or.inr (List.mem_map.mpr ⟨c, hcR₁, rfl⟩))

/-- C4: in the modelled trace of the flow controller, for every
synchronization unit the EndInput event of a group fires exactly once, a
EndInput of a child group is delivered before the EndInput of its loose
parent for
the same unit, and the EndInput of a group comes after every object of
that unit and before every object of the following unit. -/
theorem pii_C4 (chain : List Int) (objs : Nat → List Int) (n u : Nat) (g p c : Int)
    (hchain : chain.Pairwise (fun a b => a < b)) (hu : u < n) :
    (g ∈ chain → (fullTrace chain objs n).count (TraceEvent.endInput g u) = 1) ∧
    (g ∈ chain → ∀ A B : List TraceEvent,
      fullTrace chain objs n = A ++ TraceEvent.endInput g u :: B →
      (∀ g2 : Int, TraceEvent.object g2 u ∉ B) ∧
      ∀ g2 : Int, TraceEvent.object g2 (u + 1) ∉ A) ∧
    ((p, c) ∈ consecutivePairs chain → ∀ A B : List TraceEvent,
      fullTrace chain objs n = A ++ TraceEvent.endInput p u :: B →
      TraceEvent.endInput c u ∈ A) := by
  have hnd : chain.Nodup := List.Pairwise.imp (fun hab => ne_of_lt hab) hchain
  refine ⟨?_, ?_, ?_⟩
  · intro hg
    obtain ⟨A₀, B₀, hT0, hA, hB, -, -, -⟩ :=
      fullTrace_canonical chain objs n u g hnd hu hg
    rw [hT0, List.count_append, List.count_cons_self,
      List.count_eq_zero.mpr hA, List.count_eq_zero.mpr hB]
  · intro hg A B heq
    obtain ⟨A₀, B₀, hT0, hA, hB, hBobj, hAobj, -⟩ :=
      fullTrace_canonical chain objs n u g hnd hu hg
    have hcount : (fullTrace chain objs n).count (TraceEvent.endInput g u) = 1 := by
      rw [hT0, List.count_append, List.count_cons_self,
        List.count_eq_zero.mpr hA, List.count_eq_zero.mpr hB]
    have hcount2 := hcount
    rw [heq, List.count_append, List.count_cons_self] at hcount2
    have heA : TraceEvent.endInput g u ∉ A := List.count_eq_zero.mp (by omega)
    obtain ⟨hAA, hBB⟩ := append_cons_inj heA hA (heq.symm.trans hT0)
    constructor
    · intro g2
      rw [hBB]
      exact hBobj g2
    · intro g2
      rw [hAA]
      exact hAobj g2 (u + 1) (Nat.lt_succ_self u)
  · intro hpair A B heq
    have hgp : p ∈ chain := by
      obtain ⟨X, Y, hXY⟩ := consecutivePairs_decomp p c chain hpair
      rw [hXY]
      exact List.mem_append.mpr (Or.inr (List.mem_cons_self _ _))
    obtain ⟨A₀, B₀, hT0, hA, hB, -, -, hchild⟩ :=
      fullTrace_canonical chain objs n u p hnd hu hgp
    have hcount : (fullTrace chain objs n).count (TraceEvent.endInput p u) = 1 := by
      rw [hT0, List.count_append, List.count_cons_self,
        List.count_eq_zero.mpr hA, List.count_eq_zero.mpr hB]
    have hcount2 := hcount
    rw [heq, List.count_append, List.count_cons_self] at hcount2
    have heA : TraceEvent.endInput p u ∉ A := List.count_eq_zero.mp (by omega)
    obtain ⟨hAA, -⟩ := append_cons_inj heA hA (heq.symm.trans hT0)
    rw [hAA]
    exact hchild c hpair

theorem pii_C4_witness :
    (fullTrace [0, 1] (fun _ => [0, 1, 1]) 1).count (TraceEvent.endInput 0 0) = 1 :=
  (pii_C4 [0, 1] (fun _ => [0, 1, 1]) 1 0 0 0 1 (by decide) (by decide)).1 (by decide)

end Into
